import Mathlib

set_option maxHeartbeats 1000000
set_option maxRecDepth 4000

namespace Dingtalk

/-! ### Chunker model (ChunkEngine)
The repository ships only the type declaration of the chunker
(`dingtalkPlugin.outbound.chunker : (text, limit) => string[]` and
`PluginRuntime.channel.text.chunkMarkdownText` in `dist/index.d.ts`); the
implementation is not under `src/`.  The definitions below are therefore
modelled from the spec (§4.1 ChunkEngine): text is split at line
boundaries, fenced code blocks (triple-backtick delimited) are atomic,
blocks are packed greedily up to `limit` characters, an oversized fenced
block becomes its own oversized chunk, and an overlong plain line is the
only thing split mid-line.  Characters are modelled as `Char`, text as
`List Char`. -/
def nl : Char := '\n'

def btick : Char := Char.ofNat 96

def fenceMark : List Char := [btick, btick, btick]

/-- A line opens or closes a fenced code block when its first three
characters are backticks. -/
def isFenceLine (l : List Char) : Bool := decide (l.take 3 = fenceMark)

/-- Modelled from the spec: line splitting used by the missing chunker
implementation.  Each line keeps its trailing newline character, so the
lines concatenate back to the input losslessly. -/
def splitLines : List Char → List (List Char)
  | [] => []
  | c :: rest =>
    if c = nl then [nl] :: splitLines rest
    else
      match splitLines rest with
      | [] => [[c]]
      | l :: ls => (c :: l) :: ls

/-- Lines produced by `splitLines` are nonempty and contain no newline
except possibly as their final character. -/
def ProperLine (l : List Char) : Prop :=
  l ≠ [] ∧ ∀ x ∈ l.dropLast, x ≠ nl

/-- A list of lines is well-formed when every line is proper and every
line but the last ends with a newline. -/
def GoodLines (ls : List (List Char)) : Prop :=
  (∀ l ∈ ls, ProperLine l) ∧ ∀ l ∈ ls.dropLast, l.getLast? = some nl

/-! ### Blocks: fenced code blocks are atomic units -/
/-- A block is either one plain line (`fence = false`) or a whole fenced
code block: opening fence line, body lines, closing fence line
(`fence = true`). -/
structure Block where
  fence : Bool
  lines : List (List Char)
deriving DecidableEq

def Block.content (b : Block) : List Char := b.lines.flatten

/-- Number of fence-delimiter lines in a list of lines. -/
def fenceCountL (ls : List (List Char)) : Nat :=
  ls.countP (fun l => isFenceLine l)

/-- Modelled from the spec: grouping lines into atomic units for the
missing chunker implementation.  The first argument is `none` outside a
fenced code block and `some acc` (accumulated lines, reversed) while a
fence opened earlier is still unclosed. -/
def groupBlocksAux : Option (List (List Char)) → List (List Char) → List Block
  | none, [] => []
  | some acc, [] => [⟨true, acc.reverse⟩]
  | none, l :: ls =>
    if isFenceLine l then groupBlocksAux (some [l]) ls
    else ⟨false, [l]⟩ :: groupBlocksAux none ls
  | some acc, l :: ls =>
    if isFenceLine l then ⟨true, (l :: acc).reverse⟩ :: groupBlocksAux none ls
    else groupBlocksAux (some (l :: acc)) ls

/-- Modelled from the spec: a fenced code block (opening fence line
through closing fence line) is one atomic block, any other line is its
own block. -/
def groupBlocks (ls : List (List Char)) : List Block :=
  groupBlocksAux none ls

def blocksLines (bs : List Block) : List (List Char) :=
  (bs.map Block.lines).flatten

def blocksContent (bs : List Block) : List Char :=
  (bs.map Block.content).flatten

/-! ### Packing blocks into chunks -/
/-- Modelled from the spec: mid-line splitting of an overlong plain line
(the only place the missing chunker implementation splits inside a
line).  `k` is the remaining capacity of the piece under construction,
`acc` its characters in reverse. -/
def chunksOfAux (limit : Nat) : Nat → List Char → List Char → List (List Char)
  | _, acc, [] => if acc = [] then [] else [acc.reverse]
  | 0, acc, c :: rest => acc.reverse :: chunksOfAux limit (limit - 1) [c] rest
  | k + 1, acc, c :: rest => chunksOfAux limit k (c :: acc) rest

/-- Split a character list into consecutive pieces of `limit` characters
(the last piece may be shorter). -/
def chunksOf (limit : Nat) (l : List Char) : List (List Char) :=
  chunksOfAux limit limit [] l

/-- An output chunk of the model chunker, tagged by how it arose:
`packed` = one or more whole blocks within the limit, `bigFence` = a
single fenced code block longer than the limit (the documented
exception), `frag` = a mid-line fragment of an overlong plain line. -/
inductive SChunk where
  | packed (bs : List Block)
  | bigFence (b : Block)
  | frag (s : List Char)
deriving DecidableEq

def SChunk.content : SChunk → List Char
  | .packed bs => blocksContent bs
  | .bigFence b => b.content
  | .frag s => s

/-- The input lines a chunk consists of (`[]` for a mid-line fragment). -/
def SChunk.lineRun : SChunk → List (List Char)
  | .packed bs => blocksLines bs
  | .bigFence b => b.lines
  | .frag _ => []

def SChunk.isFrag : SChunk → Bool
  | .frag _ => true
  | _ => false

def SChunk.isOversizeFence : SChunk → Bool
  | .bigFence _ => true
  | _ => false

def blocksLen (bs : List Block) : Nat :=
  (bs.map fun b => b.content.length).sum

/-- Oversized single block: a fenced block becomes its own oversized
chunk, an overlong plain line is split mid-line. -/
def oversize (limit : Nat) (b : Block) : List SChunk :=
  if b.fence then [.bigFence b] else (chunksOf limit b.content).map .frag

/-- Flush the blocks accumulated for the current chunk. -/
def emitCur (bs : List Block) : List SChunk :=
  if bs = [] then [] else [.packed bs]

/-- Modelled from the spec: one step of the greedy packer of the missing
chunker implementation.  `acc.1` is the emitted chunks, `acc.2` the
blocks of the chunk under construction.  A block joins the current chunk
when it still fits in `limit`, otherwise the current chunk is flushed;
a block that alone exceeds `limit` is handled by `oversize`. -/
def packStep (limit : Nat) (acc : List SChunk × List Block) (b : Block) :
    List SChunk × List Block :=
  if blocksLen acc.2 + b.content.length ≤ limit then (acc.1, acc.2 ++ [b])
  else if b.content.length ≤ limit then (acc.1 ++ emitCur acc.2, [b])
  else (acc.1 ++ emitCur acc.2 ++ oversize limit b, [])

def packBlocks (limit : Nat) (bs : List Block) : List SChunk :=
  let r := bs.foldl (packStep limit) ([], [])
  r.1 ++ emitCur r.2

/-- Modelled from the spec: the markdown-aware chunker
(`dingtalkPlugin.outbound.chunker` / `chunkMarkdownText`), whose
implementation is not part of the published sources — only its type is
declared in `dist/index.d.ts`.  Structured output with provenance
tags. -/
def schunks (text : List Char) (limit : Nat) : List SChunk :=
  packBlocks limit (groupBlocks (splitLines text))

/-- Modelled from the spec: the markdown-aware chunker as the string
function declared in `dist/index.d.ts`. -/
def chunkMarkdownText (text : List Char) (limit : Nat) : List (List Char) :=
  (schunks text limit).map SChunk.content

def chunksContent (cs : List SChunk) : List Char :=
  (cs.map SChunk.content).flatten

/-! ### Invariant: chunk length bound -/
/-- A chunk respects the limit, or is the documented oversized-fenced-block
exception. -/
def chunkOk (limit : Nat) (c : SChunk) : Prop :=
  c.content.length ≤ limit ∨
    (c.isOversizeFence = true ∧ limit < c.content.length)

/-- A chunk is good when, unless it is a mid-line fragment, its lines
are a contiguous run of the input lines and contain balanced fences. -/
def goodChunk (all : List (List Char)) (c : SChunk) : Prop :=
  c.isFrag = false → c.lineRun <:+: all ∧ Even (fenceCountL c.lineRun)

/-- Number of fence-delimiter lines of a text. -/
def fenceCount (s : List Char) : Nat := fenceCountL (splitLines s)

/-- The block `b` lies inside the single chunk `c`: either the chunk is
exactly that (oversized) fenced block, or the chunk is a packed chunk
and `b` is one of its whole blocks. -/
def blockInChunk (b : Block) (c : SChunk) : Prop :=
  c = SChunk.bigFence b ∨ ∃ bs, c = SChunk.packed bs ∧ b ∈ bs

/-! ### Admission policy (AdmissionPolicy)
Only the configuration schema of the policy (`DingtalkConfigSchema`,
`dist/index.d.ts` lines 18-61) is in the published sources; the decision
function itself is not under `src/`.  It is modelled from the spec
(§4.2). -/
inductive ChatType where
  | direct
  | group
deriving DecidableEq

inductive DmPolicy where
  | open_
  | pairing
  | allowlist
deriving DecidableEq

inductive GroupPolicy where
  | open_
  | allowlist
  | disabled
deriving DecidableEq

structure PolicyConfig where
  dmPolicy : DmPolicy
  groupPolicy : GroupPolicy
  requireMention : Bool
  allowFrom : List String
  groupAllowFrom : List String
deriving DecidableEq

structure ConversationEvent where
  chatType : ChatType
  senderId : String
  conversationId : String
  mentioned : Bool
deriving DecidableEq

inductive Reason where
  | ok
  | disabled
  | notPaired
  | notAllowlisted
  | mentionRequired
deriving DecidableEq

structure PolicyDecision where
  allowed : Bool
  reason : Reason
deriving DecidableEq

/-- Modelled from the spec: the admission decision function (§4.2),
whose implementation is not part of the published sources.  The
policy-mode check (disabled / allowlist membership) runs first, the
mention check second; the `pairing` DM rule delegates to the external
paired-state lookup `isPaired`. -/
def AdmissionPolicy.decide (ev : ConversationEvent) (pol : PolicyConfig)
    (isPaired : String → Bool) : PolicyDecision :=
  match ev.chatType with
  | .direct =>
    match pol.dmPolicy with
    | .open_ => ⟨true, .ok⟩
    | .pairing =>
      if isPaired ev.senderId then ⟨true, .ok⟩ else ⟨false, .notPaired⟩
    | .allowlist =>
      if pol.allowFrom.contains ev.senderId then ⟨true, .ok⟩
      else ⟨false, .notAllowlisted⟩
  | .group =>
    match pol.groupPolicy with
    | .disabled => ⟨false, .disabled⟩
    | .open_ =>
      if pol.requireMention && !ev.mentioned then ⟨false, .mentionRequired⟩
      else ⟨true, .ok⟩
    | .allowlist =>
      if pol.groupAllowFrom.contains ev.conversationId then
        if pol.requireMention && !ev.mentioned then ⟨false, .mentionRequired⟩
        else ⟨true, .ok⟩
      else ⟨false, .notAllowlisted⟩

/-! ### Account resolution (AccountResolver)
`resolveAccount` is declared in `dist/index.d.ts` (lines 227-259) but its
implementation is not under `src/`; it is modelled from the spec (§3
Account, §2 AccountResolver). -/
/-- Raw configuration, mirroring `DingtalkConfigSchema`
(`dist/index.d.ts` lines 18-61). -/
structure DingtalkConfig where
  enabled : Bool
  clientId : Option String
  clientSecret : Option String
  dmPolicy : DmPolicy
  groupPolicy : GroupPolicy
  requireMention : Bool
  allowFrom : List String
  groupAllowFrom : List String
  historyLimit : Nat
  textChunkLimit : Nat
deriving DecidableEq

/-- Mirrors `ResolvedDingtalkAccount` (`dist/index.d.ts` lines 77-86). -/
structure ResolvedDingtalkAccount where
  accountId : String
  enabled : Bool
  configured : Bool
  clientId : Option String
deriving DecidableEq

/-- A credential field is usable when present and non-empty. -/
def credPresent : Option String → Bool
  | none => false
  | some s => !s.isEmpty

/-- Modelled from the spec: `resolveAccount` (declared in
`dist/index.d.ts`, implementation missing) — `configured` is true iff
both credential fields are present and non-empty (§3 Account
invariant). -/
def resolveAccount (cfg : DingtalkConfig) (accountId : String) :
    ResolvedDingtalkAccount :=
  { accountId := accountId
    enabled := cfg.enabled
    configured := credPresent cfg.clientId && credPresent cfg.clientSecret
    clientId := cfg.clientId }

/-! ### Outbound dispatch (OutboundDispatcher)
`sendText`, `sendMedia` (`dist/index.d.ts` lines 302-318) and
`sendMessageDingtalk` (lines 368-381) are only declared in the published
sources; the dispatcher below is modelled from the spec (§4.3, §7). -/
/-- Mirrors `SendResult` (`dist/index.d.ts` lines 114-119). -/
structure SendResult where
  channel : String
  messageId : String
  conversationId : String
deriving DecidableEq

/-- One outbound network call made by the dispatcher. -/
inductive NetCall where
  | chunk (c : List Char)
  | media (url : String)
deriving DecidableEq

inductive DispatchError where
  | credentialMissing
  | provider (e : String)
deriving DecidableEq

/-- Modelled from the spec: send the chunks of one text message in
order through the provider capability; all chunks must succeed and the
result of the last send is returned, otherwise the call fails as a whole
(§4.3). -/
def sendChunksLoop (prov : List Char → Except String SendResult) :
    List (List Char) → Except DispatchError SendResult × List NetCall
  | [] => (Except.error (DispatchError.provider "empty message"), [])
  | [c] =>
    match prov c with
    | Except.ok r => (Except.ok r, [NetCall.chunk c])
    | Except.error e =>
      (Except.error (DispatchError.provider e), [NetCall.chunk c])
  | c :: c2 :: rest =>
    match prov c with
    | Except.ok _ =>
      let r := sendChunksLoop prov (c2 :: rest)
      (r.1, NetCall.chunk c :: r.2)
    | Except.error e =>
      (Except.error (DispatchError.provider e), [NetCall.chunk c])

/-- Modelled from the spec: `sendText` of the OutboundDispatcher (§4.3)
— fails fast with a credential error and no network call when the
account is not configured, otherwise chunks the text and sends every
chunk in order. -/
def sendText (acct : ResolvedDingtalkAccount)
    (prov : List Char → Except String SendResult)
    (text : List Char) (limit : Nat) :
    Except DispatchError SendResult × List NetCall :=
  if acct.configured then sendChunksLoop prov (chunkMarkdownText text limit)
  else (Except.error DispatchError.credentialMissing, [])

/-- Modelled from the spec: `sendMedia` of the OutboundDispatcher (§4.3)
— fails fast when unconfigured; attempts the media send first; on a
provider failure falls back, at most once, to the text path when `text`
is present and non-empty, otherwise fails with the original media
error. -/
def sendMedia (acct : ResolvedDingtalkAccount)
    (mediaProv : String → Except String SendResult)
    (textProv : List Char → Except String SendResult)
    (text : Option (List Char)) (mediaUrl : String) (limit : Nat) :
    Except DispatchError SendResult × List NetCall :=
  if acct.configured then
    match mediaProv mediaUrl with
    | Except.ok r => (Except.ok r, [NetCall.media mediaUrl])
    | Except.error e =>
      match text with
      | some t =>
        if t = [] then
          (Except.error (DispatchError.provider e), [NetCall.media mediaUrl])
        else
          let r := sendText acct textProv t limit
          (r.1, NetCall.media mediaUrl :: r.2)
      | none =>
        (Except.error (DispatchError.provider e), [NetCall.media mediaUrl])
  else (Except.error DispatchError.credentialMissing, [])

/-! ### Gateway connection state machine (GatewayConnection)
`startAccount` (`dist/index.d.ts` lines 323-339) is only declared in the
published sources; the state machine below is modelled from the spec
(§4.4). -/
inductive ConnState where
  | disconnected
  | connecting
  | connected
  | reconnecting
  | closed
deriving DecidableEq

inductive GatewayEvent where
  | start
  | handshakeOk
  | handshakeFail
  | drop
  | backoffDone
  | cancel
deriving DecidableEq

/-- Modelled from the spec: the transition function of the gateway
connection lifecycle (§4.4), whose driving implementation
(`startAccount`) is not part of the published sources.  The cancel
signal moves every state to Closed, Closed is terminal, and otherwise
Disconnected→Connecting→Connected with Reconnecting on failure/drop. -/
def gwStep : ConnState → GatewayEvent → ConnState
  | _, .cancel => .closed
  | .closed, _ => .closed
  | .disconnected, .start => .connecting
  | .connecting, .handshakeOk => .connected
  | .connecting, .handshakeFail => .reconnecting
  | .reconnecting, .backoffDone => .connecting
  | .connected, .drop => .reconnecting
  | s, _ => s

def gwRun (s : ConnState) (evs : List GatewayEvent) : ConnState :=
  evs.foldl gwStep s

/-- The sequence of states entered while consuming the events. -/
def gwTrace (s : ConnState) : List GatewayEvent → List ConnState
  | [] => []
  | e :: evs => gwStep s e :: gwTrace (gwStep s e) evs

/-! ### Logger (`src/logger.ts`)
The logger implementation is part of the published sources
(`src/logger.ts` lines 27-43); it is embedded directly.  An output
effect is modelled as the value the sink function is applied to. -/
/-- One console output, modelling `console.log` / `console.error`. -/
inductive ConsoleOut where
  | log (msg : String)
  | error (msg : String)
deriving DecidableEq

/-- Mirrors the optional `opts` parameter of `createLogger`. -/
structure LoggerOpts (α : Type) where
  log : Option (String → α)
  error : Option (String → α)

/-- Mirrors the `Logger` interface of `src/logger.ts`. -/
structure Logger (α : Type) where
  debug : String → α
  info : String → α
  warn : String → α
  error : String → α

def consoleLog : String → ConsoleOut := ConsoleOut.log

def consoleError : String → ConsoleOut := ConsoleOut.error

/-- Embeds `createLogger` of `src/logger.ts`: each method formats the
message with the prefix (and a level tag for debug/warn/error) and
passes it to the resolved sink — `opts.log` (default `console.log`) for
debug/info/warn, `opts.error` (default `console.error`) for error. -/
def createLogger (pfx : String) (opts : Option (LoggerOpts ConsoleOut)) :
    Logger ConsoleOut :=
  let logFn := (opts.bind (fun o => o.log)).getD consoleLog
  let errorFn := (opts.bind (fun o => o.error)).getD consoleError
  { debug := fun msg => logFn ("[" ++ pfx ++ "] [DEBUG] " ++ msg)
    info := fun msg => logFn ("[" ++ pfx ++ "] " ++ msg)
    warn := fun msg => logFn ("[" ++ pfx ++ "] [WARN] " ++ msg)
    error := fun msg => errorFn ("[" ++ pfx ++ "] [ERROR] " ++ msg) }

/-- Embeds `dingtalkLogger` of `src/logger.ts`. -/
def dingtalkLogger : Logger ConsoleOut := createLogger "dingtalk" none

/-! ### Theorems -/

theorem splitLines_ne_nil (c : Char) (rest : List Char) :
    splitLines (c :: rest) ≠ [] := by
  rw [splitLines]
  by_cases h : c = nl
  · simp [h]
  · simp only [if_neg h]
    cases splitLines rest <;> simp

theorem splitLines_flatten (s : List Char) : (splitLines s).flatten = s := by
  induction s with
  | nil => rfl
  | cons c rest ih =>
    rw [splitLines]
    by_cases h : c = nl
    · simp [h, ih]
    · simp only [if_neg h]
      cases hs : splitLines rest with
      | nil =>
        have : rest = [] := by
          cases rest with
          | nil => rfl
          | cons d t => exact absurd hs (splitLines_ne_nil d t)
        simp [this]
      | cons l ls =>
        have : (l :: ls).flatten = rest := by rw [← hs]; exact ih
        simp only [List.flatten_cons] at this ⊢
        simp [← this]

theorem splitLines_proper (s : List Char) :
    ∀ l ∈ splitLines s, ProperLine l := by
  induction s with
  | nil => intro l hl; simp [splitLines] at hl
  | cons c rest ih =>
    intro l hl
    rw [splitLines] at hl
    by_cases h : c = nl
    · simp only [if_pos h] at hl
      rcases List.mem_cons.1 hl with h1 | h1
      · subst h1; exact ⟨by simp, by simp⟩
      · exact ih l h1
    · simp only [if_neg h] at hl
      cases hs : splitLines rest with
      | nil =>
        rw [hs] at hl
        simp at hl
        subst hl
        exact ⟨by simp, by simp⟩
      | cons m ms =>
        rw [hs] at hl
        rcases List.mem_cons.1 hl with h1 | h1
        · subst h1
          have hm : ProperLine m := ih m (by rw [hs]; exact List.mem_cons_self m ms)
          refine ⟨by simp, ?_⟩
          intro x hx
          rcases hm with ⟨hm1, hm2⟩
          rw [List.dropLast_cons_of_ne_nil hm1] at hx
          rcases List.mem_cons.1 hx with h2 | h2
          · subst h2; exact h
          · exact hm2 x h2
        · exact ih l (by rw [hs]; exact List.mem_cons_of_mem m h1)

/-- Every line but the last produced by `splitLines` ends with a newline. -/
theorem splitLines_ends_nl (s : List Char) :
    ∀ l ∈ (splitLines s).dropLast, l.getLast? = some nl := by
  induction s with
  | nil => intro l hl; simp [splitLines] at hl
  | cons c rest ih =>
    intro l hl
    rw [splitLines] at hl
    by_cases h : c = nl
    · simp only [if_pos h] at hl
      cases hs : splitLines rest with
      | nil => rw [hs] at hl; simp at hl
      | cons m ms =>
        rw [hs] at hl
        rw [List.dropLast_cons_of_ne_nil (by simp)] at hl
        rcases List.mem_cons.1 hl with h1 | h1
        · subst h1; rfl
        · exact ih l (by rw [hs]; exact h1)
    · simp only [if_neg h] at hl
      cases hs : splitLines rest with
      | nil => rw [hs] at hl; simp at hl
      | cons m ms =>
        rw [hs] at hl
        cases ms with
        | nil =>
          simp at hl
        | cons m2 ms2 =>
          rw [List.dropLast_cons_of_ne_nil (by simp)] at hl
          rcases List.mem_cons.1 hl with h1 | h1
          · subst h1
            have hm : m.getLast? = some nl := by
              apply ih
              rw [hs, List.dropLast_cons_of_ne_nil (by simp)]
              exact List.mem_cons_self _ _
            cases m with
            | nil => simp at hm
            | cons m0 mrest => rw [List.getLast?_cons_cons]; exact hm
          · exact ih l (by
              rw [hs, List.dropLast_cons_of_ne_nil (by simp)]
              exact List.mem_cons_of_mem m h1)

theorem dropLast_append_ne_nil {α : Type} (xs ys : List α) (h : ys ≠ []) :
    (xs ++ ys).dropLast = xs ++ ys.dropLast := by
  induction xs with
  | nil => simp
  | cons x xs ih =>
    rw [List.cons_append,
      List.dropLast_cons_of_ne_nil (by simp [h]), ih, List.cons_append]

theorem splitLines_single (l : List Char) (h : ProperLine l) :
    splitLines l = [l] := by
  induction l with
  | nil => exact absurd rfl h.1
  | cons c rest ih =>
    cases rest with
    | nil =>
      rw [splitLines]
      by_cases hc : c = nl
      · simp [hc, splitLines]
      · simp [hc, splitLines]
    | cons r rs =>
      have hc : c ≠ nl := by
        apply h.2
        rw [List.dropLast_cons_of_ne_nil (by simp)]
        exact List.mem_cons_self _ _
      have hrest : ProperLine (r :: rs) := by
        refine ⟨by simp, ?_⟩
        intro x hx
        apply h.2
        rw [List.dropLast_cons_of_ne_nil (by simp)]
        exact List.mem_cons_of_mem c hx
      rw [splitLines, if_neg hc, ih hrest]

theorem splitLines_append (a b : List Char) (h : a.getLast? = some nl) :
    splitLines (a ++ b) = splitLines a ++ splitLines b := by
  induction a with
  | nil => simp at h
  | cons c rest ih =>
    cases rest with
    | nil =>
      simp only [List.getLast?_singleton, Option.some.injEq] at h
      subst h
      rw [List.singleton_append, splitLines, if_pos rfl]
      rw [splitLines, if_pos rfl]
      simp [splitLines]
    | cons r rs =>
      have h' : (r :: rs).getLast? = some nl := by
        rw [← h, List.getLast?_cons_cons]
      have ihr := ih h'
      by_cases hc : c = nl
      · subst hc
        rw [List.cons_append,
          show splitLines (nl :: (r :: rs ++ b)) = [nl] :: splitLines (r :: rs ++ b) from
            by rw [splitLines, if_pos rfl],
          show splitLines (nl :: r :: rs) = [nl] :: splitLines (r :: rs) from
            by rw [splitLines, if_pos rfl],
          ihr, List.cons_append]
      · rw [List.cons_append, splitLines, if_neg hc, ihr]
        cases hs : splitLines (r :: rs) with
        | nil => exact absurd hs (splitLines_ne_nil r rs)
        | cons m ms =>
          rw [splitLines, if_neg hc, hs]
          simp

theorem goodLines_splitLines (s : List Char) : GoodLines (splitLines s) :=
  ⟨splitLines_proper s, splitLines_ends_nl s⟩

theorem GoodLines.of_infix {ls' ls : List (List Char)}
    (hinf : ls' <:+: ls) (h : GoodLines ls) : GoodLines ls' := by
  obtain ⟨p, q, hpq⟩ := hinf
  constructor
  · intro l hl
    exact h.1 l (by rw [← hpq]; simp [hl])
  · intro l hl
    apply h.2
    rw [← hpq]
    cases q with
    | nil =>
      rcases List.eq_nil_or_concat ls' with h0 | ⟨ys, y, hy⟩
      · rw [h0] at hl; simp at hl
      · rw [List.append_nil, dropLast_append_ne_nil p ls' (by rw [hy]; simp)]
        exact List.mem_append_right _ hl
    | cons q0 qs =>
      rw [dropLast_append_ne_nil (p ++ ls') (q0 :: qs) (by simp)]
      exact List.mem_append_left _
        (List.mem_append_right p (List.dropLast_subset _ hl))

theorem splitLines_flatten_of_good (ls : List (List Char))
    (h : GoodLines ls) : splitLines ls.flatten = ls := by
  induction ls with
  | nil => rfl
  | cons l ls ih =>
    cases hls : ls with
    | nil =>
      simp only [List.flatten_cons, List.flatten_nil, List.append_nil]
      exact splitLines_single l (h.1 l (List.mem_cons_self _ _))
    | cons m ms =>
      have hend : l.getLast? = some nl := by
        apply h.2
        rw [hls, List.dropLast_cons_of_ne_nil (by simp)]
        exact List.mem_cons_self _ _
      rw [← hls]
      rw [List.flatten_cons, splitLines_append _ _ hend,
        splitLines_single l (h.1 l (List.mem_cons_self _ _))]
      have hgood : GoodLines ls := by
        refine ⟨fun x hx => h.1 x (List.mem_cons_of_mem l hx), ?_⟩
        intro x hx
        apply h.2
        rw [hls] at hx ⊢
        rw [List.dropLast_cons_of_ne_nil (by simp)]
        exact List.mem_cons_of_mem _ hx
      rw [ih hgood]
      rfl

theorem blocksLines_append (a b : List Block) :
    blocksLines (a ++ b) = blocksLines a ++ blocksLines b := by
  simp [blocksLines]

theorem blocksContent_append (a b : List Block) :
    blocksContent (a ++ b) = blocksContent a ++ blocksContent b := by
  simp [blocksContent]

theorem blocksContent_eq_flatten (bs : List Block) :
    blocksContent bs = (blocksLines bs).flatten := by
  induction bs with
  | nil => rfl
  | cons b bs ih =>
    simp only [blocksContent, blocksLines, List.map_cons, List.flatten_cons] at ih ⊢
    rw [ih]
    simp [Block.content, blocksContent, blocksLines]

theorem groupBlocksAux_lines (ls : List (List Char)) :
    ∀ st, blocksLines (groupBlocksAux st ls)
      = (match st with | none => [] | some acc => acc.reverse) ++ ls := by
  induction ls with
  | nil =>
    intro st
    cases st with
    | none => simp [groupBlocksAux, blocksLines]
    | some acc => simp [groupBlocksAux, blocksLines]
  | cons l ls ih =>
    intro st
    cases st with
    | none =>
      rw [groupBlocksAux]
      by_cases h : isFenceLine l
      · rw [if_pos h, ih (some [l])]
        simp
      · rw [if_neg h]
        have hc : blocksLines (⟨false, [l]⟩ :: groupBlocksAux none ls)
            = [l] ++ blocksLines (groupBlocksAux none ls) := by
          simp [blocksLines]
        rw [hc, ih none]
        simp
    | some acc =>
      rw [groupBlocksAux]
      by_cases h : isFenceLine l
      · rw [if_pos h]
        have hc : blocksLines
              (⟨true, (l :: acc).reverse⟩ :: groupBlocksAux none ls)
            = (l :: acc).reverse ++ blocksLines (groupBlocksAux none ls) := by
          simp [blocksLines]
        rw [hc, ih none]
        simp
      · rw [if_neg h, ih (some (l :: acc))]
        simp

theorem groupBlocks_lines (ls : List (List Char)) :
    blocksLines (groupBlocks ls) = ls := by
  rw [groupBlocks, groupBlocksAux_lines ls none]
  rfl

theorem groupBlocksAux_even (ls : List (List Char)) :
    ∀ st,
      (match st with
        | none => Even (fenceCountL ls)
        | some acc => fenceCountL acc = 1 ∧ ¬ Even (fenceCountL ls)) →
      ∀ b ∈ groupBlocksAux st ls, Even (fenceCountL b.lines) := by
  induction ls with
  | nil =>
    intro st h b hb
    cases st with
    | none => simp [groupBlocksAux] at hb
    | some acc =>
      exact absurd (by simp [fenceCountL]) h.2
  | cons l ls ih =>
    intro st h b hb
    have hcons : ∀ x : List Char, fenceCountL (x :: ls)
        = (if isFenceLine x then 1 else 0) + fenceCountL ls := by
      intro x
      simp [fenceCountL, List.countP_cons, Nat.add_comm]
    cases st with
    | none =>
      rw [groupBlocksAux] at hb
      by_cases hf : isFenceLine l
      · rw [if_pos hf] at hb
        refine ih (some [l]) ⟨by simp [fenceCountL, hf], ?_⟩ b hb
        rw [hcons l, if_pos hf] at h
        rw [Nat.add_comm, Nat.even_add_one] at h
        exact h
      · rw [if_neg hf] at hb
        rcases List.mem_cons.1 hb with h1 | h1
        · subst h1
          simp [fenceCountL, hf]
        · refine ih none ?_ b h1
          rw [hcons l, if_neg hf] at h
          simpa using h
    | some acc =>
      rw [groupBlocksAux] at hb
      by_cases hf : isFenceLine l
      · rw [if_pos hf] at hb
        rcases List.mem_cons.1 hb with h1 | h1
        · subst h1
          show Even (fenceCountL (l :: acc).reverse)
          have hrev : fenceCountL (l :: acc).reverse
              = fenceCountL (l :: acc) :=
            (List.reverse_perm (l :: acc)).countP_eq _
          have hc : fenceCountL (l :: acc)
              = (if isFenceLine l then 1 else 0) + fenceCountL acc := by
            simp [fenceCountL, List.countP_cons, Nat.add_comm]
          rw [hrev, hc, if_pos hf, h.1]
          decide
        · refine ih none ?_ b h1
          have := h.2
          rw [hcons l, if_pos hf] at this
          rw [Nat.add_comm, Nat.even_add_one] at this
          simpa using this
      · rw [if_neg hf] at hb
        refine ih (some (l :: acc)) ⟨?_, ?_⟩ b hb
        · have : fenceCountL (l :: acc)
              = (if isFenceLine l then 1 else 0) + fenceCountL acc := by
            simp [fenceCountL, List.countP_cons, Nat.add_comm]
          rw [this, if_neg hf, h.1]
        · have := h.2
          rw [hcons l, if_neg hf] at this
          simpa using this

theorem groupBlocks_even (ls : List (List Char))
    (h : Even (fenceCountL ls)) :
    ∀ b ∈ groupBlocks ls, Even (fenceCountL b.lines) :=
  groupBlocksAux_even ls none h

theorem chunksOfAux_flatten (limit : Nat) (l : List Char) :
    ∀ (k : Nat) (acc : List Char),
      (chunksOfAux limit k acc l).flatten = acc.reverse ++ l := by
  induction l with
  | nil =>
    intro k acc
    by_cases h : acc = []
    · simp [chunksOfAux, h]
    · simp [chunksOfAux, h]
  | cons c rest ih =>
    intro k acc
    cases k with
    | zero =>
      rw [chunksOfAux]
      simp [ih]
    | succ k =>
      rw [chunksOfAux, ih]
      simp

theorem chunksOf_flatten (limit : Nat) (l : List Char) :
    (chunksOf limit l).flatten = l := by
  rw [chunksOf, chunksOfAux_flatten]
  rfl

theorem chunksOfAux_length (limit : Nat) (hl : 0 < limit) (l : List Char) :
    ∀ (k : Nat) (acc : List Char), acc.length + k = limit →
      ∀ p ∈ chunksOfAux limit k acc l, p.length ≤ limit := by
  induction l with
  | nil =>
    intro k acc hinv p hp
    rw [chunksOfAux] at hp
    split at hp
    · simp at hp
    · simp at hp
      subst hp
      simp
      omega
  | cons c rest ih =>
    intro k acc hinv p hp
    cases k with
    | zero =>
      rw [chunksOfAux] at hp
      rcases List.mem_cons.1 hp with h1 | h1
      · subst h1
        simp
        omega
      · exact ih (limit - 1) [c] (by simp; omega) p h1
    | succ k =>
      rw [chunksOfAux] at hp
      exact ih k (c :: acc) (by simp; omega) p hp

theorem chunksOf_length (limit : Nat) (hl : 0 < limit) (l : List Char) :
    ∀ p ∈ chunksOf limit l, p.length ≤ limit := by
  rw [chunksOf]
  exact chunksOfAux_length limit hl l limit [] (by simp)

theorem SChunk.content_eq_lineRun {c : SChunk} (h : c.isFrag = false) :
    c.content = c.lineRun.flatten := by
  cases c with
  | packed bs => simp [SChunk.content, SChunk.lineRun, blocksContent_eq_flatten]
  | bigFence b => rfl
  | frag s => simp [SChunk.isFrag] at h

theorem blocksLen_append (a b : List Block) :
    blocksLen (a ++ b) = blocksLen a + blocksLen b := by
  simp [blocksLen]

theorem length_blocksContent (bs : List Block) :
    (blocksContent bs).length = blocksLen bs := by
  simp [blocksContent, blocksLen, List.length_flatten]
  rfl

theorem chunksContent_append (a b : List SChunk) :
    chunksContent (a ++ b) = chunksContent a ++ chunksContent b := by
  simp [chunksContent]

theorem chunksContent_emitCur (bs : List Block) :
    chunksContent (emitCur bs) = blocksContent bs := by
  by_cases h : bs = []
  · simp [emitCur, h, chunksContent, blocksContent]
  · simp [emitCur, h, chunksContent, SChunk.content]

theorem chunksContent_oversize (limit : Nat) (b : Block) :
    chunksContent (oversize limit b) = b.content := by
  by_cases h : b.fence
  · simp [oversize, h, chunksContent, SChunk.content]
  · simp only [oversize, h, Bool.false_eq_true, if_false]
    rw [chunksContent, List.map_map]
    have : (SChunk.content ∘ SChunk.frag) = id := rfl
    rw [this, List.map_id, chunksOf_flatten]

theorem packStep_content (limit : Nat) (acc : List SChunk × List Block)
    (b : Block) :
    chunksContent (packStep limit acc b).1 ++ blocksContent (packStep limit acc b).2
      = chunksContent acc.1 ++ blocksContent acc.2 ++ b.content := by
  rw [packStep]
  split
  · rw [blocksContent_append]
    simp [blocksContent, Block.content, List.append_assoc]
  · split
    · rw [chunksContent_append, chunksContent_emitCur]
      simp [blocksContent, Block.content, List.append_assoc]
    · rw [chunksContent_append, chunksContent_append,
        chunksContent_emitCur, chunksContent_oversize]
      simp [blocksContent, List.append_assoc]

theorem foldl_packStep_content (limit : Nat) (bs : List Block) :
    ∀ acc : List SChunk × List Block,
      chunksContent (bs.foldl (packStep limit) acc).1
          ++ blocksContent (bs.foldl (packStep limit) acc).2
        = chunksContent acc.1 ++ blocksContent acc.2 ++ blocksContent bs := by
  induction bs with
  | nil => intro acc; simp [blocksContent]
  | cons b bs ih =>
    intro acc
    rw [List.foldl_cons, ih (packStep limit acc b), packStep_content]
    rw [show blocksContent (b :: bs) = b.content ++ blocksContent bs from by
      simp [blocksContent]]
    simp [List.append_assoc]

theorem packBlocks_content (limit : Nat) (bs : List Block) :
    chunksContent (packBlocks limit bs) = blocksContent bs := by
  rw [packBlocks]
  have h := foldl_packStep_content limit bs ([], [])
  rw [chunksContent_append, chunksContent_emitCur]
  simpa [chunksContent, blocksContent] using h

theorem emitCur_ok (limit : Nat) (cur : List Block)
    (h : blocksLen cur ≤ limit) : ∀ c ∈ emitCur cur, chunkOk limit c := by
  intro c hc
  rw [emitCur] at hc
  split at hc
  · simp at hc
  · simp at hc
    subst hc
    left
    rw [SChunk.content, length_blocksContent]
    exact h

theorem oversize_ok (limit : Nat) (hl : 0 < limit) (b : Block)
    (h : limit < b.content.length) :
    ∀ c ∈ oversize limit b, chunkOk limit c := by
  intro c hc
  rw [oversize] at hc
  split at hc
  · simp at hc
    subst hc
    right
    exact ⟨rfl, h⟩
  · simp only [List.mem_map] at hc
    obtain ⟨p, hp, hpc⟩ := hc
    subst hpc
    left
    exact chunksOf_length limit hl b.content p hp

theorem foldl_packStep_limit (limit : Nat) (hl : 0 < limit)
    (bs : List Block) :
    ∀ acc : List SChunk × List Block,
      (∀ c ∈ acc.1, chunkOk limit c) → blocksLen acc.2 ≤ limit →
      (∀ c ∈ (bs.foldl (packStep limit) acc).1, chunkOk limit c) ∧
        blocksLen (bs.foldl (packStep limit) acc).2 ≤ limit := by
  induction bs with
  | nil => intro acc h1 h2; exact ⟨h1, h2⟩
  | cons b bs ih =>
    intro acc h1 h2
    rw [List.foldl_cons]
    apply ih
    · rw [packStep]
      split
      · exact h1
      · split
        · intro c hc
          rcases List.mem_append.1 hc with h3 | h3
          · exact h1 c h3
          · exact emitCur_ok limit acc.2 h2 c h3
        · rename_i hfit halone
          intro c hc
          rcases List.mem_append.1 hc with h3 | h3
          · rcases List.mem_append.1 h3 with h4 | h4
            · exact h1 c h4
            · exact emitCur_ok limit acc.2 h2 c h4
          · exact oversize_ok limit hl b (by omega) c h3
    · rw [packStep]
      split
      · rename_i hfit
        rw [blocksLen_append]
        simpa [blocksLen] using hfit
      · split
        · rename_i hfit halone
          simpa [blocksLen] using halone
        · simp [blocksLen]

theorem packBlocks_limit (limit : Nat) (hl : 0 < limit) (bs : List Block) :
    ∀ c ∈ packBlocks limit bs, chunkOk limit c := by
  intro c hc
  rw [packBlocks] at hc
  have h := foldl_packStep_limit limit hl bs ([], [])
    (by intro c hc; simp at hc) (by simp [blocksLen])
  rcases List.mem_append.1 hc with h1 | h1
  · exact h.1 c h1
  · exact emitCur_ok limit _ h.2 c h1

/-! ### Invariant: fence balance of non-fragment chunks -/
theorem even_fenceCountL_blocksLines (bs : List Block)
    (h : ∀ b ∈ bs, Even (fenceCountL b.lines)) :
    Even (fenceCountL (blocksLines bs)) := by
  induction bs with
  | nil => simp [blocksLines, fenceCountL]
  | cons b bs ih =>
    have : blocksLines (b :: bs) = b.lines ++ blocksLines bs := by
      simp [blocksLines]
    rw [this, fenceCountL, List.countP_append]
    exact Even.add (h b (List.mem_cons_self _ _))
      (ih fun x hx => h x (List.mem_cons_of_mem _ hx))

theorem emitCur_good (all : List (List Char)) (cur : List Block)
    (heven : ∀ b ∈ cur, Even (fenceCountL b.lines))
    (hinf : blocksLines cur <:+: all) :
    ∀ c ∈ emitCur cur, goodChunk all c := by
  intro c hc
  rw [emitCur] at hc
  split at hc
  · simp at hc
  · simp at hc
    subst hc
    intro _
    exact ⟨hinf, even_fenceCountL_blocksLines cur heven⟩

theorem foldl_packStep_fences (limit : Nat) (all : List (List Char))
    (bs : List Block) :
    ∀ (out : List SChunk) (cur : List Block) (pre : List (List Char)),
      (∀ c ∈ out, goodChunk all c) →
      (∀ b ∈ cur, Even (fenceCountL b.lines)) →
      (∀ b ∈ bs, Even (fenceCountL b.lines)) →
      pre ++ (blocksLines cur ++ blocksLines bs) = all →
      (∀ c ∈ (bs.foldl (packStep limit) (out, cur)).1, goodChunk all c) ∧
        (∀ b ∈ (bs.foldl (packStep limit) (out, cur)).2,
          Even (fenceCountL b.lines)) ∧
        ∃ pre2, pre2 ++ blocksLines (bs.foldl (packStep limit) (out, cur)).2
          = all := by
  induction bs with
  | nil =>
    intro out cur pre hout hcur _ hpre
    refine ⟨hout, hcur, pre, ?_⟩
    simpa [blocksLines] using hpre
  | cons b bs ih =>
    intro out cur pre hout hcur hbs hpre
    have hb : Even (fenceCountL b.lines) := hbs b (List.mem_cons_self _ _)
    have hbs' : ∀ x ∈ bs, Even (fenceCountL x.lines) :=
      fun x hx => hbs x (List.mem_cons_of_mem _ hx)
    have hsplit : blocksLines (b :: bs) = b.lines ++ blocksLines bs := by
      simp [blocksLines]
    rw [hsplit] at hpre
    have hinfcur : blocksLines cur <:+: all :=
      ⟨pre, b.lines ++ blocksLines bs, by rw [← hpre]; simp⟩
    rw [List.foldl_cons, packStep]
    split
    · apply ih out (cur ++ [b]) pre hout
      · intro x hx
        rcases List.mem_append.1 hx with h1 | h1
        · exact hcur x h1
        · simp at h1; subst h1; exact hb
      · exact hbs'
      · rw [blocksLines_append, ← hpre]
        simp [blocksLines]
    · split
      · apply ih (out ++ emitCur cur) [b] (pre ++ blocksLines cur)
        · intro c hc
          rcases List.mem_append.1 hc with h1 | h1
          · exact hout c h1
          · exact emitCur_good all cur hcur hinfcur c h1
        · intro x hx; simp at hx; subst hx; exact hb
        · exact hbs'
        · rw [← hpre]
          simp [blocksLines]
      · apply ih (out ++ emitCur cur ++ oversize limit b) []
          (pre ++ blocksLines cur ++ b.lines)
        · intro c hc
          rcases List.mem_append.1 hc with h1 | h1
          · rcases List.mem_append.1 h1 with h2 | h2
            · exact hout c h2
            · exact emitCur_good all cur hcur hinfcur c h2
          · rw [oversize] at h1
            split at h1
            · simp at h1
              subst h1
              intro _
              refine ⟨⟨pre ++ blocksLines cur, blocksLines bs, ?_⟩, hb⟩
              rw [← hpre]
              simp [SChunk.lineRun]
            · simp only [List.mem_map] at h1
              obtain ⟨p, _, hpc⟩ := h1
              subst hpc
              intro hfrag
              simp [SChunk.isFrag] at hfrag
        · intro x hx; simp at hx
        · exact hbs'
        · rw [← hpre]
          simp [blocksLines]

theorem packBlocks_fences (limit : Nat) (all : List (List Char))
    (bs : List Block)
    (hb : ∀ b ∈ bs, Even (fenceCountL b.lines))
    (hall : blocksLines bs = all) :
    ∀ c ∈ packBlocks limit bs, goodChunk all c := by
  intro c hc
  rw [packBlocks] at hc
  have h := foldl_packStep_fences limit all bs [] [] []
    (by intro c hc; simp at hc) (by intro x hx; simp at hx) hb
    (by simpa [blocksLines] using hall)
  rcases List.mem_append.1 hc with h1 | h1
  · exact h.1 c h1
  · obtain ⟨pre2, hpre2⟩ := h.2.2
    exact emitCur_good all _ h.2.1 ⟨pre2, [], by simp [hpre2]⟩ c h1

theorem goodChunk_even_content {text : List Char} {c : SChunk}
    (hg : goodChunk (splitLines text) c) (hfrag : c.isFrag = false) :
    Even (fenceCount c.content) := by
  obtain ⟨hinf, heven⟩ := hg hfrag
  rw [fenceCount, SChunk.content_eq_lineRun hfrag,
    splitLines_flatten_of_good _ (GoodLines.of_infix hinf
      (goodLines_splitLines text))]
  exact heven

theorem foldl_packStep_keeps (limit : Nat) (bs : List Block) :
    ∀ (out : List SChunk) (cur : List Block) (b : Block), b.fence = true →
      (b ∈ cur ∨ b ∈ bs ∨ ∃ c ∈ out, blockInChunk b c) →
      (b ∈ (bs.foldl (packStep limit) (out, cur)).2 ∨
        ∃ c ∈ (bs.foldl (packStep limit) (out, cur)).1, blockInChunk b c) := by
  induction bs with
  | nil =>
    intro out cur b _ h
    rcases h with h | h | h
    · exact Or.inl h
    · simp at h
    · exact Or.inr h
  | cons hd bs ih =>
    intro out cur b hf h
    rw [List.foldl_cons, packStep]
    split
    · refine ih out (cur ++ [hd]) b hf ?_
      rcases h with h | h | h
      · exact Or.inl (List.mem_append_left _ h)
      · rcases List.mem_cons.1 h with h1 | h1
        · subst h1
          exact Or.inl (List.mem_append_right _ (List.mem_cons_self _ _))
        · exact Or.inr (Or.inl h1)
      · exact Or.inr (Or.inr h)
    · split
      · refine ih (out ++ emitCur cur) [hd] b hf ?_
        rcases h with h | h | h
        · refine Or.inr (Or.inr ⟨SChunk.packed cur, ?_, Or.inr ⟨cur, rfl, h⟩⟩)
          apply List.mem_append_right
          rw [emitCur, if_neg (by intro h0; rw [h0] at h; simp at h)]
          exact List.mem_cons_self _ _
        · rcases List.mem_cons.1 h with h1 | h1
          · subst h1
            exact Or.inl (List.mem_cons_self _ _)
          · exact Or.inr (Or.inl h1)
        · obtain ⟨c, hc, hbc⟩ := h
          exact Or.inr (Or.inr ⟨c, List.mem_append_left _ hc, hbc⟩)
      · refine ih (out ++ emitCur cur ++ oversize limit hd) [] b hf ?_
        rcases h with h | h | h
        · refine Or.inr (Or.inr ⟨SChunk.packed cur, ?_, Or.inr ⟨cur, rfl, h⟩⟩)
          apply List.mem_append_left
          apply List.mem_append_right
          rw [emitCur, if_neg (by intro h0; rw [h0] at h; simp at h)]
          exact List.mem_cons_self _ _
        · rcases List.mem_cons.1 h with h1 | h1
          · subst h1
            refine Or.inr (Or.inr ⟨SChunk.bigFence b, ?_, Or.inl rfl⟩)
            apply List.mem_append_right
            rw [oversize, if_pos hf]
            exact List.mem_cons_self _ _
          · exact Or.inr (Or.inl h1)
        · obtain ⟨c, hc, hbc⟩ := h
          exact Or.inr (Or.inr ⟨c,
            List.mem_append_left _ (List.mem_append_left _ hc), hbc⟩)

theorem packBlocks_keeps (limit : Nat) (bs : List Block) (b : Block)
    (hf : b.fence = true) (hb : b ∈ bs) :
    ∃ c ∈ packBlocks limit bs, blockInChunk b c := by
  rw [packBlocks]
  have h := foldl_packStep_keeps limit bs [] [] b hf (Or.inr (Or.inl hb))
  rcases h with h | ⟨c, hc, hbc⟩
  · refine ⟨SChunk.packed (bs.foldl (packStep limit) ([], [])).2, ?_,
      Or.inr ⟨_, rfl, h⟩⟩
    apply List.mem_append_right
    rw [emitCur, if_neg (by intro h0; rw [h0] at h; simp at h)]
    exact List.mem_cons_self _ _
  · exact ⟨c, List.mem_append_left _ hc, hbc⟩

theorem blockInChunk_infix {b : Block} {c : SChunk} (h : blockInChunk b c) :
    b.lines <:+: c.lineRun := by
  rcases h with h | ⟨bs, hc, hb⟩
  · subst h
    exact List.infix_refl _
  · subst hc
    obtain ⟨p, q, hpq⟩ := List.append_of_mem hb
    refine ⟨blocksLines p, blocksLines q, ?_⟩
    rw [hpq]
    show blocksLines p ++ b.lines ++ blocksLines q = blocksLines (p ++ b :: q)
    simp [blocksLines]

/-- Claim C1: for every input text and every limit > 0, every chunk returned by
the chunker has length at most `limit` characters, the single permitted
exception being a chunk that is one fenced code block whose own content
exceeds the limit. -/
theorem chunker_limit (text : List Char) (limit : Nat) (hl : 0 < limit) :
    chunkMarkdownText text limit = (schunks text limit).map SChunk.content ∧
      ∀ c ∈ schunks text limit,
        c.content.length ≤ limit ∨
          (c.isOversizeFence = true ∧ limit < c.content.length) :=
  ⟨rfl, fun c hc => packBlocks_limit limit hl _ c hc⟩

theorem chunker_limit_witness :
    0 < 4 ∧
      (chunkMarkdownText ("a\nbb\nccc\n").toList 4
          = (schunks ("a\nbb\nccc\n").toList 4).map SChunk.content ∧
        ∀ c ∈ schunks ("a\nbb\nccc\n").toList 4,
          c.content.length ≤ 4 ∨
            (c.isOversizeFence = true ∧ 4 < c.content.length)) :=
  ⟨by decide, chunker_limit ("a\nbb\nccc\n").toList 4 (by decide)⟩

/-- Claim C2: concatenating all chunks returned by the chunker reproduces the
input text exactly.  The model chunker inserts no soft-break markers, so
nothing needs removing before concatenation. -/
theorem chunker_round_trip (text : List Char) (limit : Nat)
    (_hl : 0 < limit) : (chunkMarkdownText text limit).flatten = text := by
  show chunksContent (schunks text limit) = text
  rw [schunks, packBlocks_content, blocksContent_eq_flatten,
    groupBlocks_lines, splitLines_flatten]

theorem chunker_round_trip_witness :
    0 < 3 ∧ (chunkMarkdownText ("ab\ncd ef\ng").toList 3).flatten
      = ("ab\ncd ef\ng").toList :=
  ⟨by decide, chunker_round_trip ("ab\ncd ef\ng").toList 3 (by decide)⟩

/-- Claim C3 counterexample: the input "ab``````" has balanced fences (no line
starts with a triple backtick), yet at limit 3 the chunker must split the
overlong plain line mid-line and one of the resulting fragments, "```",
standing alone, is an unbalanced fence marker.  So the claim as stated
fails. -/
theorem fence_integrity_cex :
    0 < 3 ∧ Even (fenceCount ("ab``````").toList) ∧
      ¬ ∀ c ∈ chunkMarkdownText ("ab``````").toList 3,
          Even (fenceCount c) := by
  decide

/-- Claim C3 (amended): for every input with balanced triple-backtick fences and
every limit > 0, (i) every chunk that is not a mid-line fragment of an
overlong plain line contains balanced fence markers (an even number of
fence-delimiter lines), and (ii) fences are never severed: every fenced
code block of the input lies inside one single chunk — it is that chunk
(an oversized fence chunk) or one of the whole blocks of a packed chunk,
so its lines are a contiguous run of that chunk's lines. -/
theorem fence_integrity_amended (text : List Char) (limit : Nat)
    (_hl : 0 < limit) (hb : Even (fenceCount text)) :
    (∀ c ∈ schunks text limit, c.isFrag = false →
      Even (fenceCount c.content)) ∧
    (∀ b ∈ groupBlocks (splitLines text), b.fence = true →
      ∃ c ∈ schunks text limit,
        blockInChunk b c ∧ b.lines <:+: c.lineRun) := by
  constructor
  · intro c hc hfrag
    exact goodChunk_even_content
      (packBlocks_fences limit (splitLines text) (groupBlocks (splitLines text))
        (groupBlocks_even (splitLines text) hb)
        (groupBlocks_lines (splitLines text)) c hc) hfrag
  · intro b hbmem hf
    obtain ⟨c, hc, hbc⟩ := packBlocks_keeps limit _ b hf hbmem
    exact ⟨c, hc, hbc, blockInChunk_infix hbc⟩

theorem fence_integrity_amended_witness :
    0 < 6 ∧ Even (fenceCount ("a\n```\nxx\n```\nb\n").toList) ∧
      ((∀ c ∈ schunks ("a\n```\nxx\n```\nb\n").toList 6, c.isFrag = false →
          Even (fenceCount c.content)) ∧
        (∀ b ∈ groupBlocks (splitLines ("a\n```\nxx\n```\nb\n").toList),
          b.fence = true →
          ∃ c ∈ schunks ("a\n```\nxx\n```\nb\n").toList 6,
            blockInChunk b c ∧ b.lines <:+: c.lineRun)) :=
  ⟨by decide, by decide,
    fence_integrity_amended ("a\n```\nxx\n```\nb\n").toList 6
      (by decide) (by decide)⟩

/-- Claim C4: the concrete policy table.  With dmPolicy=allowlist and
allowFrom=["u1"], sender "u1" is allowed and sender "u2" is denied with
reason not-allowlisted; with groupPolicy=open and requireMention=true, an
unmentioned group event is denied with reason mention-required and a
mentioned one is allowed; with groupPolicy=disabled every group event is
denied (reason disabled) regardless of allowlist contents. -/
theorem policy_table (isPaired : String → Bool) :
    (∀ rm gp gaf,
      AdmissionPolicy.decide ⟨.direct, "u1", "c", false⟩
          ⟨.allowlist, gp, rm, ["u1"], gaf⟩ isPaired = ⟨true, .ok⟩ ∧
      AdmissionPolicy.decide ⟨.direct, "u2", "c", false⟩
          ⟨.allowlist, gp, rm, ["u1"], gaf⟩ isPaired
        = ⟨false, .notAllowlisted⟩) ∧
    (∀ dp af gaf sender conv,
      AdmissionPolicy.decide ⟨.group, sender, conv, false⟩
          ⟨dp, .open_, true, af, gaf⟩ isPaired = ⟨false, .mentionRequired⟩ ∧
      AdmissionPolicy.decide ⟨.group, sender, conv, true⟩
          ⟨dp, .open_, true, af, gaf⟩ isPaired = ⟨true, .ok⟩) ∧
    (∀ (ev : ConversationEvent) (pol : PolicyConfig),
      ev.chatType = .group → pol.groupPolicy = .disabled →
      AdmissionPolicy.decide ev pol isPaired = ⟨false, .disabled⟩) := by
  refine ⟨fun rm gp gaf => ⟨rfl, rfl⟩, fun dp af gaf sender conv => ⟨rfl, rfl⟩, ?_⟩
  intro ev pol hg hd
  rw [AdmissionPolicy.decide, hg, hd]

theorem policy_table_witness :
    AdmissionPolicy.decide ⟨.group, "u9", "conv9", true⟩
        ⟨.open_, .disabled, false, [], ["conv9"]⟩ (fun _ => false)
      = ⟨false, .disabled⟩ :=
  (policy_table (fun _ => false)).2.2
    ⟨.group, "u9", "conv9", true⟩ ⟨.open_, .disabled, false, [], ["conv9"]⟩
    rfl rfl

/-- Claim C5: under groupPolicy=allowlist with requireMention=true, a group
event that fails both the allowlist-membership check and the mention
check is denied with the membership reason not-allowlisted, because the
policy-mode check is evaluated before the mention check. -/
theorem membership_before_mention (ev : ConversationEvent)
    (pol : PolicyConfig) (isPaired : String → Bool)
    (hg : ev.chatType = .group) (hp : pol.groupPolicy = .allowlist)
    (_hrm : pol.requireMention = true)
    (hmem : pol.groupAllowFrom.contains ev.conversationId = false)
    (_hment : ev.mentioned = false) :
    AdmissionPolicy.decide ev pol isPaired = ⟨false, .notAllowlisted⟩ := by
  rw [AdmissionPolicy.decide, hg, hp, hmem]
  simp

theorem membership_before_mention_witness :
    AdmissionPolicy.decide ⟨.group, "u1", "conv1", false⟩
        ⟨.open_, .allowlist, true, [], ["conv2"]⟩ (fun _ => false)
      = ⟨false, .notAllowlisted⟩ :=
  membership_before_mention ⟨.group, "u1", "conv1", false⟩
    ⟨.open_, .allowlist, true, [], ["conv2"]⟩ (fun _ => false)
    rfl rfl rfl (by decide) rfl

theorem credPresent_some (s : String) : credPresent (some s) = !s.isEmpty := rfl

theorem isEmpty_false_iff (s : String) : s.isEmpty = false ↔ s ≠ "" := by
  constructor
  · intro h hs
    subst hs
    exact absurd h (by decide)
  · intro h
    cases he : s.isEmpty
    · rfl
    · exact absurd ((String.isEmpty_iff s).1 he) h

/-- Claim C6: `configured` is true iff both clientId and clientSecret are
present and non-empty; an account with clientId set but clientSecret
empty reports configured=false; and `configured` depends on nothing but
those two fields. -/
theorem configured_invariant :
    (∀ (cfg : DingtalkConfig) (aid : String),
      (resolveAccount cfg aid).configured = true ↔
        ((∃ c, cfg.clientId = some c ∧ c ≠ "") ∧
          (∃ s, cfg.clientSecret = some s ∧ s ≠ ""))) ∧
    (∀ (cfg : DingtalkConfig) (aid : String),
      cfg.clientSecret = some "" →
      (resolveAccount cfg aid).configured = false) ∧
    (∀ (cfg cfg' : DingtalkConfig) (aid aid' : String),
      cfg.clientId = cfg'.clientId → cfg.clientSecret = cfg'.clientSecret →
      (resolveAccount cfg aid).configured
        = (resolveAccount cfg' aid').configured) := by
  refine ⟨?_, ?_, ?_⟩
  · intro cfg aid
    rw [resolveAccount]
    simp only [Bool.and_eq_true]
    constructor
    · rintro ⟨h1, h2⟩
      cases hc : cfg.clientId with
      | none => rw [hc] at h1; simp [credPresent] at h1
      | some c =>
        cases hs : cfg.clientSecret with
        | none => rw [hs] at h2; simp [credPresent] at h2
        | some s =>
          rw [hc] at h1
          rw [hs] at h2
          rw [credPresent_some, Bool.not_eq_true'] at h1 h2
          exact ⟨⟨c, rfl, (isEmpty_false_iff c).1 h1⟩,
            ⟨s, rfl, (isEmpty_false_iff s).1 h2⟩⟩
    · rintro ⟨⟨c, hc, hcne⟩, ⟨s, hs, hsne⟩⟩
      rw [hc, hs]
      constructor
      · rw [credPresent_some, Bool.not_eq_true']
        exact (isEmpty_false_iff c).2 hcne
      · rw [credPresent_some, Bool.not_eq_true']
        exact (isEmpty_false_iff s).2 hsne
  · intro cfg aid h
    rw [resolveAccount]
    simp only [h, credPresent_some]
    rw [show ("" : String).isEmpty = true from by decide]
    simp
  · intro cfg cfg' aid aid' h1 h2
    rw [resolveAccount, resolveAccount]
    simp only
    rw [h1, h2]

theorem configured_invariant_witness :
    ((resolveAccount
        ⟨true, some "appkey", none, .open_, .open_, false, [], [], 50, 4000⟩
        "default").configured = true ↔
      ((∃ c, (some "appkey" : Option String) = some c ∧ c ≠ "") ∧
        (∃ s, (none : Option String) = some s ∧ s ≠ ""))) ∧
    (resolveAccount
        ⟨true, some "appkey", some "", .open_, .open_, false, [], [], 50, 4000⟩
        "default").configured = false :=
  ⟨configured_invariant.1
      ⟨true, some "appkey", none, .open_, .open_, false, [], [], 50, 4000⟩
      "default",
    configured_invariant.2.1
      ⟨true, some "appkey", some "", .open_, .open_, false, [], [], 50, 4000⟩
      "default" rfl⟩

/-- Claim C7: for every account that is not configured, both sendText and
sendMedia fail immediately with the credential-missing error and the
list of performed network calls is empty. -/
theorem fail_fast_unconfigured (acct : ResolvedDingtalkAccount)
    (mediaProv : String → Except String SendResult)
    (textProv : List Char → Except String SendResult)
    (text : List Char) (mtext : Option (List Char)) (url : String)
    (limit : Nat) (h : acct.configured = false) :
    sendText acct textProv text limit
        = (Except.error DispatchError.credentialMissing, []) ∧
      sendMedia acct mediaProv textProv mtext url limit
        = (Except.error DispatchError.credentialMissing, []) := by
  rw [sendText, sendMedia, h]
  simp

theorem fail_fast_unconfigured_witness :
    sendText ⟨"default", true, false, some "appkey"⟩
        (fun _ => Except.ok ⟨"dingtalk", "m1", "c1"⟩) ("hi").toList 4000
        = (Except.error DispatchError.credentialMissing, []) ∧
      sendMedia ⟨"default", true, false, some "appkey"⟩
        (fun _ => Except.ok ⟨"dingtalk", "m1", "c1"⟩)
        (fun _ => Except.ok ⟨"dingtalk", "m1", "c1"⟩)
        (some ("hi").toList) "https://example.com/img.png" 4000
        = (Except.error DispatchError.credentialMissing, []) :=
  fail_fast_unconfigured ⟨"default", true, false, some "appkey"⟩
    (fun _ => Except.ok ⟨"dingtalk", "m1", "c1"⟩)
    (fun _ => Except.ok ⟨"dingtalk", "m1", "c1"⟩)
    ("hi").toList (some ("hi").toList) "https://example.com/img.png" 4000 rfl

theorem sendChunksLoop_calls (prov : List Char → Except String SendResult) :
    ∀ cs : List (List Char),
      ∀ call ∈ (sendChunksLoop prov cs).2, ∃ c, call = NetCall.chunk c := by
  intro cs
  induction cs with
  | nil => intro call hc; simp [sendChunksLoop] at hc
  | cons c cs ih =>
    intro call hc
    cases cs with
    | nil =>
      rw [sendChunksLoop] at hc
      cases hp : prov c with
      | ok r => rw [hp] at hc; simp at hc; exact ⟨c, hc⟩
      | error e => rw [hp] at hc; simp at hc; exact ⟨c, hc⟩
    | cons c2 rest =>
      rw [sendChunksLoop] at hc
      cases hp : prov c with
      | ok r =>
        rw [hp] at hc
        simp only [List.mem_cons] at hc
        rcases hc with h1 | h1
        · exact ⟨c, h1⟩
        · exact ih call h1
      | error e => rw [hp] at hc; simp at hc; exact ⟨c, hc⟩

/-- Claim C8: when the media attempt fails with a provider error and `text` is
present and non-empty, sendMedia falls back to the text path exactly
once — it returns the result of that text send, the media call is the
only media attempt (all remaining calls are chunk sends) — and when
`text` is absent it fails with the original media error. -/
theorem media_fallback (acct : ResolvedDingtalkAccount)
    (mediaProv : String → Except String SendResult)
    (textProv : List Char → Except String SendResult)
    (t : List Char) (url : String) (limit : Nat) (e : String)
    (hconf : acct.configured = true)
    (hmedia : mediaProv url = Except.error e) (ht : t ≠ []) :
    sendMedia acct mediaProv textProv (some t) url limit
        = ((sendText acct textProv t limit).1,
            NetCall.media url :: (sendText acct textProv t limit).2) ∧
      (∀ call ∈ (sendText acct textProv t limit).2,
        ∃ c, call = NetCall.chunk c) ∧
      sendMedia acct mediaProv textProv none url limit
        = (Except.error (DispatchError.provider e), [NetCall.media url]) := by
  refine ⟨?_, ?_, ?_⟩
  · rw [sendMedia, hconf, if_pos rfl, hmedia]
    simp [ht]
  · intro call hc
    rw [sendText, hconf, if_pos rfl] at hc
    exact sendChunksLoop_calls textProv _ call hc
  · rw [sendMedia, hconf, if_pos rfl, hmedia]

theorem media_fallback_witness :
    sendMedia ⟨"default", true, true, some "appkey"⟩
        (fun _ => Except.error "unreachable media url")
        (fun _ => Except.ok ⟨"dingtalk", "m2", "c2"⟩)
        (some ("hello").toList) "https://bad.example/x.png" 4000
        = ((sendText ⟨"default", true, true, some "appkey"⟩
              (fun _ => Except.ok ⟨"dingtalk", "m2", "c2"⟩)
              ("hello").toList 4000).1,
            NetCall.media "https://bad.example/x.png" ::
              (sendText ⟨"default", true, true, some "appkey"⟩
                (fun _ => Except.ok ⟨"dingtalk", "m2", "c2"⟩)
                ("hello").toList 4000).2) ∧
      (∀ call ∈ (sendText ⟨"default", true, true, some "appkey"⟩
            (fun _ => Except.ok ⟨"dingtalk", "m2", "c2"⟩)
            ("hello").toList 4000).2,
        ∃ c, call = NetCall.chunk c) ∧
      sendMedia ⟨"default", true, true, some "appkey"⟩
        (fun _ => Except.error "unreachable media url")
        (fun _ => Except.ok ⟨"dingtalk", "m2", "c2"⟩)
        none "https://bad.example/x.png" 4000
        = (Except.error (DispatchError.provider "unreachable media url"),
            [NetCall.media "https://bad.example/x.png"]) :=
  media_fallback ⟨"default", true, true, some "appkey"⟩
    (fun _ => Except.error "unreachable media url")
    (fun _ => Except.ok ⟨"dingtalk", "m2", "c2"⟩)
    ("hello").toList "https://bad.example/x.png" 4000
    "unreachable media url" rfl rfl (by decide)

theorem gwTrace_append (a b : List GatewayEvent) :
    ∀ s, gwTrace s (a ++ b) = gwTrace s a ++ gwTrace (gwRun s a) b := by
  induction a with
  | nil => intro s; simp [gwTrace, gwRun]
  | cons e a ih =>
    intro s
    rw [List.cons_append, gwTrace, gwTrace, ih (gwStep s e), List.cons_append]
    rfl

theorem gwRun_closed (evs : List GatewayEvent) :
    gwRun .closed evs = .closed ∧ ∀ x ∈ gwTrace .closed evs, x = .closed := by
  induction evs with
  | nil => exact ⟨rfl, by simp [gwTrace]⟩
  | cons e evs ih =>
    have hstep : gwStep .closed e = .closed := by cases e <;> rfl
    constructor
    · rw [gwRun, List.foldl_cons, hstep]
      exact ih.1
    · intro x hx
      rw [gwTrace, hstep] at hx
      rcases List.mem_cons.1 hx with h1 | h1
      · exact h1
      · exact ih.2 x h1

theorem gwStep_no_connect (s : ConnState) (e : GatewayEvent)
    (hs : s ≠ .connected) (he : e ≠ .handshakeOk) :
    gwStep s e ≠ .connected := by
  revert hs he
  cases s <;> cases e <;> decide

theorem gwRun_no_connect (evs : List GatewayEvent)
    (hno : GatewayEvent.handshakeOk ∉ evs) :
    ∀ s, s ≠ .connected →
      gwRun s evs ≠ .connected ∧ ∀ x ∈ gwTrace s evs, x ≠ .connected := by
  induction evs with
  | nil => intro s hs; exact ⟨hs, by simp [gwTrace]⟩
  | cons e evs ih =>
    intro s hs
    have he : e ≠ .handshakeOk := fun h => hno (by rw [h]; exact List.mem_cons_self _ _)
    have hno' : GatewayEvent.handshakeOk ∉ evs :=
      fun h => hno (List.mem_cons_of_mem _ h)
    have hstep : gwStep s e ≠ .connected := gwStep_no_connect s e hs he
    constructor
    · rw [gwRun, List.foldl_cons]
      exact (ih hno' (gwStep s e) hstep).1
    · intro x hx
      rw [gwTrace] at hx
      rcases List.mem_cons.1 hx with h1 | h1
      · rw [h1]; exact hstep
      · exact (ih hno' (gwStep s e) hstep).2 x h1

/-- Claim C9: the cancel signal moves every state to Closed, Closed is
terminal (no event leaves it and Connecting is never entered after it),
and a run from Disconnected in which cancel fires before the handshake
completes reaches Closed without ever passing through Connected. -/
theorem gateway_cancel (evs1 evs2 : List GatewayEvent)
    (hno : GatewayEvent.handshakeOk ∉ evs1) :
    (∀ s, gwStep s .cancel = .closed) ∧
      (∀ e, gwStep .closed e = .closed) ∧
      (∀ evs, gwRun .closed evs = .closed ∧
        ConnState.connecting ∉ gwTrace .closed evs) ∧
      (gwRun .disconnected (evs1 ++ .cancel :: evs2) = .closed ∧
        ConnState.connected ∉ gwTrace .disconnected (evs1 ++ .cancel :: evs2)) := by
  refine ⟨fun s => by cases s <;> rfl, fun e => by cases e <;> rfl, ?_, ?_, ?_⟩
  · intro evs
    refine ⟨(gwRun_closed evs).1, fun hmem => ?_⟩
    have := (gwRun_closed evs).2 _ hmem
    simp at this
  · rw [gwRun, List.foldl_append, ← gwRun, ← gwRun, gwRun, List.foldl_cons]
    have hcan : gwStep (gwRun .disconnected evs1) .cancel = .closed := by
      cases gwRun .disconnected evs1 <;> rfl
    rw [hcan, ← gwRun]
    exact (gwRun_closed evs2).1
  · intro hmem
    rw [gwTrace_append] at hmem
    rcases List.mem_append.1 hmem with h1 | h1
    · exact (gwRun_no_connect evs1 hno .disconnected (by simp)).2 _ h1 rfl
    · rw [gwTrace] at h1
      have hcan : gwStep (gwRun .disconnected evs1) .cancel = .closed := by
        cases gwRun .disconnected evs1 <;> rfl
      rw [hcan] at h1
      rcases List.mem_cons.1 h1 with h2 | h2
      · exact ConnState.noConfusion h2
      · have := (gwRun_closed evs2).2 _ h2
        simp at this

theorem gateway_cancel_witness :
    GatewayEvent.handshakeOk
        ∉ [GatewayEvent.start, GatewayEvent.handshakeFail] ∧
      (gwRun .disconnected
          ([GatewayEvent.start, GatewayEvent.handshakeFail]
            ++ .cancel :: [GatewayEvent.start, GatewayEvent.handshakeOk])
          = .closed ∧
        ConnState.connected
          ∉ gwTrace .disconnected
            ([GatewayEvent.start, GatewayEvent.handshakeFail]
              ++ .cancel :: [GatewayEvent.start, GatewayEvent.handshakeOk])) :=
  ⟨by decide,
    (gateway_cancel [GatewayEvent.start, GatewayEvent.handshakeFail]
      [GatewayEvent.start, GatewayEvent.handshakeOk] (by decide)).2.2.2⟩

/-- Claim C10: each Logger method emits exactly one output through the
resolved sink — debug/info/warn through the provided log function
(`console.log` when none is given) with the `[prefix] [LEVEL]` format,
error through the provided error function (`console.error` when none is
given) — and the original message text is preserved verbatim as the
suffix of the emitted line. -/
theorem logger_format (pfx msg : String)
    (fLog fErr : String → ConsoleOut) :
    ((createLogger pfx (some ⟨some fLog, some fErr⟩)).debug msg
        = fLog ("[" ++ pfx ++ "] [DEBUG] " ++ msg) ∧
      (createLogger pfx (some ⟨some fLog, some fErr⟩)).info msg
        = fLog ("[" ++ pfx ++ "] " ++ msg) ∧
      (createLogger pfx (some ⟨some fLog, some fErr⟩)).warn msg
        = fLog ("[" ++ pfx ++ "] [WARN] " ++ msg) ∧
      (createLogger pfx (some ⟨some fLog, some fErr⟩)).error msg
        = fErr ("[" ++ pfx ++ "] [ERROR] " ++ msg)) ∧
    ((createLogger pfx none).debug msg
        = ConsoleOut.log ("[" ++ pfx ++ "] [DEBUG] " ++ msg) ∧
      (createLogger pfx none).info msg
        = ConsoleOut.log ("[" ++ pfx ++ "] " ++ msg) ∧
      (createLogger pfx none).warn msg
        = ConsoleOut.log ("[" ++ pfx ++ "] [WARN] " ++ msg) ∧
      (createLogger pfx none).error msg
        = ConsoleOut.error ("[" ++ pfx ++ "] [ERROR] " ++ msg)) :=
  ⟨⟨rfl, rfl, rfl, rfl⟩, ⟨rfl, rfl, rfl, rfl⟩⟩

end Dingtalk

